import Mathlib

/-!
Verification development for the RAG knowledge-base subsystem of the
social-agent repository: chunker (src/chunking.py), store (src/rag_database.py),
hybrid retriever (src/rag_retriever.py) and ingest (src/knowledge_base.py).

Python strings are modelled as lists of characters, SQLite tables as lists of
rows, floating-point scores as rationals, and the external FTS5/embedding
engines as oracle parameters.  Loops are modelled with an explicit fuel
argument (one unit per iteration); a fuel-irrelevance lemma shows any fuel
at least the remaining text length gives the same result, so the top-level
wrappers use fuel equal to the text length.
-/

namespace SocialAgent

/-- Characters the chunker treats as sentence terminators: the Python
membership test c in ".!?\n". -/
def isSentenceEnd (c : Char) : Bool :=
  c = '.' || c = '!' || c = '?' || c = '\n'

/-- Characters the chunker treats as word boundaries: the Python membership
test c in " \t\n". -/
def isWordBreak (c : Char) : Bool :=
  c = ' ' || c = '\t' || c = '\n'

/-- ASCII whitespace removed by Python str.strip(). -/
def isPySpace (c : Char) : Bool :=
  c = ' ' || c = '\t' || c = '\n' || c = '\r' || c = Char.ofNat 11 || c = Char.ofNat 12

/-- Python str.strip() on a character list. -/
def pyStrip (l : List Char) : List Char :=
  ((l.dropWhile isPySpace).reverse.dropWhile isPySpace).reverse

/-- Python slice text[start:stop] on a character list. -/
def slice (text : List Char) (start stop : Nat) : List Char :=
  (text.drop start).take (stop - start)

/-- Backward scan mirroring the Python loop for i in range(hi, lo, -1):
returns the largest index i with lo < i ≤ hi such that pred holds at
text[i], if any. -/
def scanBack (text : List Char) (pred : Char → Bool) (lo : Nat) : Nat → Option Nat
  | 0 => none
  | i + 1 =>
    if i + 1 ≤ lo then none
    else if pred (text.getD (i + 1) ' ') then some (i + 1)
    else scanBack text pred lo i

/-- End-position computation of one chunking iteration (shared verbatim by
chunk_text and chunk_documents in src/chunking.py): tentative end
start + chunk_size; if it falls before the text end, scan backward from
end - 1 to max(start + chunk_size - 100, start) exclusive for a sentence
terminator and cut just after it; if the end is still start + chunk_size,
scan backward to max(start, end - 50) exclusive for a word break and cut
just after it; otherwise keep the hard cut.  The cut after a found boundary
index i is i + 1 (the Python end = i + 1); a failed scan keeps the fallback. -/
def cutAt (found : Option Nat) (fallback : Nat) : Nat :=
  found.elim fallback (fun i => i + 1)

/-- End-position computation continued: see cutAt for the cut-just-after rule. -/
def computeEnd (text : List Char) (start chunkSize : Nat) : Nat :=
  let e := start + chunkSize
  if e < text.length then
    let searchStart := max (start + chunkSize - 100) start
    let e1 := cutAt (scanBack text isSentenceEnd searchStart (e - 1)) e
    if e1 = start + chunkSize then
      cutAt (scanBack text isWordBreak (max start (e - 50)) (e - 1)) e1
    else e1
  else e

/-- Cursor advance of the chunking loops: start = max(start + 1, end - chunk_overlap). -/
def nextStart (start endPos overlap : Nat) : Nat :=
  max (start + 1) (endPos - overlap)

/-- The while loop of chunk_text, fuelled: one fuel unit per iteration. -/
def chunkLoop (text : List Char) (chunkSize chunkOverlap : Nat) :
    Nat → Nat → List (List Char)
  | 0, _ => []
  | fuel + 1, start =>
    if start < text.length then
      let e := computeEnd text start chunkSize
      let content := pyStrip (slice text start e)
      let rest := chunkLoop text chunkSize chunkOverlap fuel (nextStart start e chunkOverlap)
      if content.isEmpty then rest else content :: rest
    else []

/-- Embedding of chunk_text from src/chunking.py. -/
def chunk_text (text : List Char) (chunkSize chunkOverlap : Nat) : List (List Char) :=
  if (pyStrip text).isEmpty then [] else chunkLoop text chunkSize chunkOverlap text.length 0

/-- The successive (start, end) spans visited by the chunk_text loop. -/
def chunkSpans (text : List Char) (chunkSize chunkOverlap : Nat) :
    Nat → Nat → List (Nat × Nat)
  | 0, _ => []
  | fuel + 1, start =>
    if start < text.length then
      let e := computeEnd text start chunkSize
      (start, e) :: chunkSpans text chunkSize chunkOverlap fuel (nextStart start e chunkOverlap)
    else []

/-- A produced chunk with metadata, as in src/chunking.py. -/
structure Chunk where
  content : List Char
  notion_page_id : String
  chunk_index : Nat
deriving Repr, DecidableEq

/-- The per-document while loop of chunk_documents, carrying the running
chunk_index counter (incremented exactly when a chunk is appended). -/
def chunkDocLoop (doc : List Char) (pageId : String) (chunkSize chunkOverlap : Nat) :
    Nat → Nat → Nat → List Chunk
  | 0, _, _ => []
  | fuel + 1, start, idx =>
    if start < doc.length then
      let e := computeEnd doc start chunkSize
      let content := pyStrip (slice doc start e)
      if content.isEmpty then
        chunkDocLoop doc pageId chunkSize chunkOverlap fuel (nextStart start e chunkOverlap) idx
      else
        ⟨content, pageId, idx⟩ ::
          chunkDocLoop doc pageId chunkSize chunkOverlap fuel
            (nextStart start e chunkOverlap) (idx + 1)
    else []

/-- Embedding of chunk_documents from src/chunking.py; the ValueError is an
error value, blank documents are skipped. -/
def chunk_documents (docs : List (List Char)) (pageIds : List String)
    (chunkSize chunkOverlap : Nat) : Except String (List Chunk) :=
  if docs.length ≠ pageIds.length then
    .error "Number of documents must match number of page IDs"
  else
    .ok ((docs.zip pageIds).flatMap fun dp =>
      if (pyStrip dp.1).isEmpty then []
      else chunkDocLoop dp.1 dp.2 chunkSize chunkOverlap dp.1.length 0 0)

/-! Spec-level restatements of the boundary search, used to compare the code
with the wording of the specification. -/

/-- The descending index window hi, hi - 1, ..., lo of a backward search. -/
def backWindow (lo hi : Nat) : List Nat :=
  (List.range' lo (hi + 1 - lo)).reverse

/-- The end-position rule exactly as the specification words it: search
backward up to 100 characters (never before the cursor) for a sentence
terminator and cut just after it; if none found, search backward up to 50
characters for whitespace and cut just after it; otherwise cut hard at
maxSize. -/
def computeEnd_specC3 (text : List Char) (start chunkSize : Nat) : Nat :=
  let e := start + chunkSize
  if e < text.length then
    ((backWindow (max start (e - 100)) (e - 1)).find?
        (fun i => isSentenceEnd (text.getD i ' '))).elim
      (((backWindow (max start (e - 50)) (e - 1)).find?
          (fun i => isWordBreak (text.getD i ' '))).elim e (fun i => i + 1))
      (fun i => i + 1)
  else e

/-- The amended end-position rule: both windows exclude their lowest position
(99 and 49 candidate characters), and the whitespace search also runs when a
terminator was found only at the final position (end unchanged). -/
def computeEnd_amended (text : List Char) (start chunkSize : Nat) : Nat :=
  let e := start + chunkSize
  if e < text.length then
    let e1 := ((backWindow (max (start + chunkSize - 100) start + 1) (e - 1)).find?
        (fun i => isSentenceEnd (text.getD i ' '))).elim e (fun i => i + 1)
    if e1 = start + chunkSize then
      ((backWindow (max start (e - 50) + 1) (e - 1)).find?
          (fun i => isWordBreak (text.getD i ' '))).elim e1 (fun i => i + 1)
    else e1
  else e

/-- A 1000-character document whose only sentence terminator before position
512 (indeed anywhere) is a period at index 480, with no whitespace. -/
def exampleDoc : List Char :=
  List.replicate 480 'a' ++ '.' :: List.replicate 519 'b'

/-- A 151-character document whose only sentence terminator sits exactly 100
characters before the tentative end 100, with no whitespace. -/
def c3Doc : List Char :=
  '.' :: List.replicate 150 'a'

/-- A two-character non-blank document. -/
def twoCharDoc : List Char := ['a', 'b']

/-! The store (src/rag_database.py).  SQLite tables are lists of rows in
insertion order; AUTOINCREMENT row ids are modelled by a fresh-id counter;
serialized embedding blobs are rational vectors.  ORDER BY is modelled by the
stable, kernel-computable insertionSort on the sort key. -/

/-- A row of the chunks table. -/
structure ChunkRow where
  id : Nat
  content : List Char
  notion_page_id : Option String
  chunk_index : Option Nat
deriving Repr, DecidableEq

/-- A row of the posts table. -/
structure PostRow where
  id : Nat
  content : List Char
  mastodon_id : String
  metadata : Option String
deriving Repr, DecidableEq

/-- The SQLite database state: chunks, the chunks_fts lexical index (rowid and
content), chunk_embeddings, posts and post_embeddings. -/
structure DB where
  chunks : List ChunkRow
  chunks_fts : List (Nat × List Char)
  chunk_embeddings : List (Nat × List Rat)
  posts : List PostRow
  post_embeddings : List (Nat × List Rat)
  nextChunkId : Nat
  nextPostId : Nat
deriving Repr, DecidableEq

/-- A freshly initialized database. -/
def emptyDB : DB := ⟨[], [], [], [], [], 1, 1⟩

/-- store_chunk: insert the chunk row and its chunks_fts row, return the new
row id. -/
def store_chunk (s : DB) (content : List Char) (pid : Option String)
    (idx : Option Nat) : Nat × DB :=
  (s.nextChunkId,
    { s with
      chunks := s.chunks ++ [⟨s.nextChunkId, content, pid, idx⟩]
      chunks_fts := s.chunks_fts ++ [(s.nextChunkId, content)]
      nextChunkId := s.nextChunkId + 1 })

/-- store_chunk_embedding: INSERT OR REPLACE keyed on chunk_id. -/
def store_chunk_embedding (s : DB) (cid : Nat) (emb : List Rat) : DB :=
  { s with
    chunk_embeddings := (s.chunk_embeddings.filter (fun p => p.1 ≠ cid)) ++ [(cid, emb)] }

/-- get_chunk: SELECT * FROM chunks WHERE id = ?. -/
def get_chunk (s : DB) (cid : Nat) : Option ChunkRow :=
  s.chunks.find? (fun c => c.id = cid)

/-- get_chunk_embedding: SELECT embedding FROM chunk_embeddings WHERE chunk_id = ?. -/
def get_chunk_embedding (s : DB) (cid : Nat) : Option (List Rat) :=
  ((s.chunk_embeddings.find? (fun p => p.1 = cid)).map (fun p => p.2))

/-- Sort key for ORDER BY chunk_index: SQLite NULLs sort first. -/
def idxKey (c : ChunkRow) : Nat :=
  c.chunk_index.elim 0 (fun i => i + 1)

/-- get_chunks_by_page_id: SELECT * FROM chunks WHERE notion_page_id = ?
ORDER BY chunk_index. -/
def get_chunks_by_page_id (s : DB) (pid : String) : List ChunkRow :=
  List.insertionSort (fun a b => idxKey a ≤ idxKey b)
    (s.chunks.filter (fun c => c.notion_page_id = some pid))

/-- The ids selected by delete_chunks_by_page_id before it deletes. -/
def pageChunkIds (s : DB) (pid : String) : List Nat :=
  (s.chunks.filter (fun c => c.notion_page_id = some pid)).map (fun c => c.id)

/-- delete_chunks_by_page_id: delete the page's fts rows, embeddings, and
chunk rows, in one transaction. -/
def delete_chunks_by_page_id (s : DB) (pid : String) : DB :=
  let ids := pageChunkIds s pid
  { s with
    chunks_fts := s.chunks_fts.filter (fun r => ¬ r.1 ∈ ids)
    chunk_embeddings := s.chunk_embeddings.filter (fun r => ¬ r.1 ∈ ids)
    chunks := s.chunks.filter (fun c => ¬ c.notion_page_id = some pid) }

/-- store_post: INSERT OR REPLACE keyed on the unique mastodon_id; a replaced
row is deleted and reinserted under a fresh id. -/
def store_post (s : DB) (content : List Char) (mid : String)
    (meta : Option String) : Nat × DB :=
  (s.nextPostId,
    { s with
      posts := (s.posts.filter (fun p => p.mastodon_id ≠ mid)) ++
        [⟨s.nextPostId, content, mid, meta⟩]
      nextPostId := s.nextPostId + 1 })

/-- store_post_embedding: INSERT OR REPLACE keyed on post_id. -/
def store_post_embedding (s : DB) (pid : Nat) (emb : List Rat) : DB :=
  { s with
    post_embeddings := (s.post_embeddings.filter (fun p => p.1 ≠ pid)) ++ [(pid, emb)] }

/-! The ingest path (src/knowledge_base.py). -/

/-- The store-chunks-and-embeddings loop of add_document; embFn is the
external embedding capability. -/
def persistChunks (embFn : List Char → List Rat) : DB → List Chunk → DB
  | s, [] => s
  | s, ch :: t =>
    let r := store_chunk s ch.content (some ch.notion_page_id) (some ch.chunk_index)
    persistChunks embFn (store_chunk_embedding r.2 r.1 (embFn ch.content)) t

/-- add_document: delete the page's existing chunks, chunk the new content
(chunk_documents with the default sizes 512/50), then persist each chunk with
its embedding.  A chunking error would propagate after the delete. -/
def add_document (s : DB) (embFn : List Char → List Rat) (pid : String)
    (content : List Char) : DB :=
  let s1 := delete_chunks_by_page_id s pid
  match chunk_documents [content] [pid] 512 50 with
  | .ok cs => persistChunks embFn s1 cs
  | .error _ => s1

/-! The hybrid retriever (src/rag_retriever.py).  The FTS5 engine internals
are oracle parameters: a match predicate and a per-rowid rank; the embedding
model and cosine scoring are an oracle assigning each stored vector its
similarity with the query. -/

/-- A retrieved result row. -/
structure RetrievedChunk where
  chunk_id : Int
  content : List Char
  notion_page_id : Option String
  chunk_index : Option Nat
  score : Rat
  bm25_score : Rat
  semantic_score : Rat
deriving Repr, DecidableEq

/-- Python dict.get(k, 0.0) on an association list. -/
def lookup0 (l : List (Int × Rat)) (k : Int) : Rat :=
  ((l.find? (fun p => p.1 = k)).map (fun p => p.2)).getD 0

/-- Optional lookup on an association list (dict membership plus value). -/
def lookupOpt (l : List (Int × Rat)) (k : Int) : Option Rat :=
  (l.find? (fun p => p.1 = k)).map (fun p => p.2)

/-- The SQL of _bm25_search: chunks_fts MATCH ? joined with chunks on
rowid = id, ORDER BY rank ascending, LIMIT ?.  Returns (rowid, rank) pairs. -/
def ftsQuery (s : DB) (matchQ : String → List Char → Bool)
    (rankOf : String → Nat → Rat) (q : String) (limit : Nat) : List (Nat × Rat) :=
  (List.insertionSort (fun a b => a.2 ≤ b.2)
    (((s.chunks_fts.filter (fun r => matchQ q r.2)).filter
        (fun r => (get_chunk s r.1).isSome)).map
      (fun r => (r.1, rankOf q r.1)))).take limit

/-- max(row[4] for row in rows); the guard value 1 mirrors the dead else
branch of the code. -/
def maxRank : List (Nat × Rat) → Rat
  | [] => 1
  | r :: t => (t.map (fun p => p.2)).foldl max r.2

/-- min(row[4] for row in rows); the guard value 0 mirrors the dead else
branch of the code. -/
def minRank : List (Nat × Rat) → Rat
  | [] => 0
  | r :: t => (t.map (fun p => p.2)).foldl min r.2

/-- Rank normalization of _bm25_search: invert and rescale so that lower
(better) ranks score higher; all-tied ranks score 1.0. -/
def normalizeRank (m M r : Rat) : Rat :=
  if m < M then 1 - (r - m) / (M - m) else 1

/-- Embedding of _bm25_search: run the FTS query, then normalize each rank. -/
def bm25_search (s : DB) (matchQ : String → List Char → Bool)
    (rankOf : String → Nat → Rat) (q : String) (limit : Nat) : List (Nat × Rat) :=
  let rows := ftsQuery s matchQ rankOf q limit
  rows.map (fun p => (p.1, normalizeRank (minRank rows) (maxRank rows) p.2))

/-- Embedding of _semantic_search: similarity of every chunk embedding, and,
when requested, of every post embedding keyed by the negated post id.  The
limit parameter of the Python function is unused by its body. -/
def semantic_search (s : DB) (sim : List Rat → Rat) (includePosts : Bool) :
    List (Int × Rat) :=
  s.chunk_embeddings.map (fun e => ((e.1 : Int), sim e.2)) ++
    (if includePosts then s.post_embeddings.map (fun e => (-(e.1 : Int), sim e.2)) else [])

/-- SELECT content, mastodon_id FROM posts WHERE id = ?. -/
def findPost (s : DB) (pid : Nat) : Option PostRow :=
  s.posts.find? (fun p => p.id = pid)

/-- Embedding of _combine_results: for every id in the union of both result
sets, fuse the scores (missing component 0.0), then resolve the row from the
store; negative ids resolve as posts, others as chunks; unresolvable ids are
dropped. -/
def combine_results (s : DB) (bm sem : List (Int × Rat)) (alpha : Rat) :
    List RetrievedChunk :=
  ((bm.map Prod.fst ++ sem.map Prod.fst).dedup).filterMap (fun cid =>
    let bmScore := lookup0 bm cid
    let semScore := lookup0 sem cid
    let score := alpha * semScore + (1 - alpha) * bmScore
    if cid < 0 then
      (findPost s (-cid).toNat).map (fun p =>
        ⟨cid, p.content, none, none, score, 0, semScore⟩)
    else
      (get_chunk s cid.toNat).map (fun c =>
        ⟨cid, c.content, c.notion_page_id, c.chunk_index, score, bmScore, semScore⟩))

/-- The lexical candidate set of hybrid_search: _bm25_search with the 2·topK
over-fetch, keyed into the shared integer id space. -/
def bmCandidates (s : DB) (matchQ : String → List Char → Bool)
    (rankOf : String → Nat → Rat) (q : String) (top_k : Nat) : List (Int × Rat) :=
  (bm25_search s matchQ rankOf q (top_k * 2)).map (fun p => ((p.1 : Int), p.2))

/-- Embedding of hybrid_search: combine both candidate sets, sort by combined
score descending, return the first top_k. -/
def hybrid_search (s : DB) (matchQ : String → List Char → Bool)
    (rankOf : String → Nat → Rat) (sim : List Rat → Rat) (q : String)
    (top_k : Nat) (alpha : Rat) (includePosts : Bool) : List RetrievedChunk :=
  let bm := bmCandidates s matchQ rankOf q top_k
  let sem := semantic_search s sim includePosts
  (List.insertionSort (fun a b => b.score ≤ a.score)
    (combine_results s bm sem alpha)).take top_k

/-- The fused score as the specification words it for C1: the semantic
component is the cosine similarity rescaled to the unit interval via
(sim + 1)/2; a candidate missing from one result set contributes 0 for that
component. -/
def specCombinedScoreC1 (alpha : Rat) (lex sem : Option Rat) : Rat :=
  alpha * (sem.elim 0 (fun v => (v + 1) / 2)) + (1 - alpha) * (lex.elim 0 id)

/-- An id is resolvable when the row it denotes exists in the store. -/
def resolvable (s : DB) (cid : Int) : Bool :=
  if cid < 0 then (findPost s (-cid).toNat).isSome else (get_chunk s cid.toNat).isSome

/-- The chunk-table ids, in table order. -/
def chunkIds (s : DB) : List Nat :=
  s.chunks.map (fun c => c.id)

/-- The lexical-index rowids, in table order. -/
def ftsIds (s : DB) : List Nat :=
  s.chunks_fts.map Prod.fst

/-- The well-formedness the store maintains for the chunk table and the
lexical index: the fts rowids are exactly the chunk ids (as multisets), chunk
ids are unique, and all sit below the fresh-id counter. -/
def WellFormedStore (s : DB) : Prop :=
  (chunkIds s).Perm (ftsIds s) ∧ (chunkIds s).Nodup ∧
    ∀ i ∈ chunkIds s, i < s.nextChunkId

/-- Every chunk-embedding row is owned by an existing chunk row. -/
def EmbOwnersExist (s : DB) : Prop :=
  ∀ e ∈ s.chunk_embeddings, ∃ c ∈ s.chunks, c.id = e.1

/-- A store holding one chunk (id 1) with its fts row and embedding. -/
def oneChunkDB : DB :=
  ⟨[⟨1, ['x'], none, none⟩], [(1, ['x'])], [(1, [1])], [], [], 2, 1⟩

/-- The chunk rows that persisting a chunk list appends, given the next fresh
id: consecutive ids, each chunk's page id and ordinal. -/
def mkRows (n : Nat) : List Chunk → List ChunkRow
  | [] => []
  | ch :: t => ⟨n, ch.content, some ch.notion_page_id, some ch.chunk_index⟩ :: mkRows (n + 1) t

/-- The chunk list chunk_documents produces for a single document. -/
def docSegment (pid : String) (content : List Char) : List Chunk :=
  if (pyStrip content).isEmpty then []
  else chunkDocLoop content pid 512 50 content.length 0 0

/-! Basic facts about the loop pieces. -/

theorem nextStart_gt (start endPos overlap : Nat) : start < nextStart start endPos overlap := by
  simp only [nextStart]
  omega

theorem scanBack_gt_lo {text : List Char} {pred : Char → Bool} {lo i j : Nat}
    (h : scanBack text pred lo i = some j) : lo < j := by
  induction i with
  | zero => simp [scanBack] at h
  | succ i ih =>
    simp only [scanBack] at h
    split at h
    · exact absurd h (by simp)
    · split at h
      · cases h; omega
      · exact ih h

theorem scanBack_le {text : List Char} {pred : Char → Bool} {lo i j : Nat}
    (h : scanBack text pred lo i = some j) : j ≤ i := by
  induction i with
  | zero => simp [scanBack] at h
  | succ i ih =>
    simp only [scanBack] at h
    split at h
    · exact absurd h (by simp)
    · split at h
      · cases h; omega
      · exact Nat.le_succ_of_le (ih h)

theorem computeEnd_gt {text : List Char} {start chunkSize : Nat} (h : 1 ≤ chunkSize) :
    start < computeEnd text start chunkSize := by
  unfold computeEnd
  dsimp only
  split
  · cases hsc : scanBack text isSentenceEnd (max (start + chunkSize - 100) start)
        (start + chunkSize - 1) with
    | some i =>
      have h1 : start < i :=
        Nat.lt_of_le_of_lt (Nat.le_max_right (start + chunkSize - 100) start)
          (scanBack_gt_lo hsc)
      simp only [cutAt, Option.elim_some]
      split
      · cases hw : scanBack text isWordBreak (max start (start + chunkSize - 50))
            (start + chunkSize - 1) with
        | some k =>
          have h2 : start < k :=
            Nat.lt_of_le_of_lt (Nat.le_max_left start (start + chunkSize - 50))
              (scanBack_gt_lo hw)
          simp only [Option.elim_some]
          omega
        | none => simp only [Option.elim_none]; omega
      · omega
    | none =>
      simp only [cutAt, Option.elim_none]
      split
      · cases hw : scanBack text isWordBreak (max start (start + chunkSize - 50))
            (start + chunkSize - 1) with
        | some k =>
          have h2 : start < k :=
            Nat.lt_of_le_of_lt (Nat.le_max_left start (start + chunkSize - 50))
              (scanBack_gt_lo hw)
          simp only [Option.elim_some]
          omega
        | none => simp only [Option.elim_none]; omega
      · omega
  · omega

theorem computeEnd_le {text : List Char} {start chunkSize : Nat}
    (h : start + chunkSize < text.length) :
    computeEnd text start chunkSize ≤ start + chunkSize := by
  unfold computeEnd
  dsimp only
  split
  · cases hsc : scanBack text isSentenceEnd (max (start + chunkSize - 100) start)
        (start + chunkSize - 1) with
    | some i =>
      have h1 : start < i :=
        Nat.lt_of_le_of_lt (Nat.le_max_right (start + chunkSize - 100) start)
          (scanBack_gt_lo hsc)
      have h1b := scanBack_le hsc
      simp only [cutAt, Option.elim_some]
      split
      · cases hw : scanBack text isWordBreak (max start (start + chunkSize - 50))
            (start + chunkSize - 1) with
        | some k =>
          have h2 : start < k :=
            Nat.lt_of_le_of_lt (Nat.le_max_left start (start + chunkSize - 50))
              (scanBack_gt_lo hw)
          have h2b := scanBack_le hw
          simp only [Option.elim_some]
          omega
        | none => simp only [Option.elim_none]; omega
      · omega
    | none =>
      simp only [cutAt, Option.elim_none]
      split
      · cases hw : scanBack text isWordBreak (max start (start + chunkSize - 50))
            (start + chunkSize - 1) with
        | some k =>
          have h2 : start < k :=
            Nat.lt_of_le_of_lt (Nat.le_max_left start (start + chunkSize - 50))
              (scanBack_gt_lo hw)
          have h2b := scanBack_le hw
          simp only [Option.elim_some]
          omega
        | none => simp only [Option.elim_none]; omega
      · omega
  · omega

/-- Fuel irrelevance: any fuel covering the remaining length yields the same
chunk list, so the loop terminates within text.length iterations. -/
theorem chunkLoop_fuel_irrel (text : List Char) (cs co : Nat) :
    ∀ f g start, text.length - start ≤ f → text.length - start ≤ g →
      chunkLoop text cs co f start = chunkLoop text cs co g start := by
  intro f
  induction f with
  | zero =>
    intro g start hf hg
    have hs : ¬ start < text.length := by omega
    cases g with
    | zero => rfl
    | succ g => simp [chunkLoop, hs]
  | succ f ih =>
    intro g start hf hg
    by_cases hs : start < text.length
    · cases g with
      | zero => omega
      | succ g =>
        simp only [chunkLoop, hs, if_pos]
        have hlt := nextStart_gt start (computeEnd text start cs) co
        rw [ih g (nextStart start (computeEnd text start cs) co) (by omega) (by omega)]
    · cases g with
      | zero => simp [chunkLoop, hs]
      | succ g => simp [chunkLoop, hs]

/-! Relating the backward scan to the spec-level window search. -/

theorem scanBack_eq_find (text : List Char) (pred : Char → Bool) (lo : Nat) :
    ∀ hi, scanBack text pred lo hi =
      (backWindow (lo + 1) hi).find? (fun i => pred (text.getD i ' ')) := by
  intro hi
  induction hi with
  | zero =>
    have h0 : 0 + 1 - (lo + 1) = 0 := by omega
    simp [scanBack, backWindow, h0]
  | succ i ih =>
    by_cases hle : i + 1 ≤ lo
    · have h0 : i + 1 + 1 - (lo + 1) = 0 := by omega
      simp [scanBack, hle, backWindow, h0]
    · rw [scanBack, if_neg hle]
      have h1 : i + 1 + 1 - (lo + 1) = (i - lo) + 1 := by omega
      have h2 : lo + 1 + (i - lo) = i + 1 := by omega
      have h3 : i + 1 - (lo + 1) = i - lo := by omega
      simp only [backWindow, h1, List.range'_1_concat, h2, List.reverse_append,
        List.reverse_cons, List.reverse_nil, List.nil_append, List.cons_append,
        List.singleton_append]
      rw [List.find?_cons]
      by_cases hp : pred (text.getD (i + 1) ' ')
      · rw [if_pos hp]
        simp only [hp]
      · rw [if_neg hp]
        have hp2 : pred (text.getD (i + 1) ' ') = false := by
          simpa using hp
        simp only [hp2]
        rw [ih]
        simp only [backWindow, h3]

theorem computeEnd_eq_amended (text : List Char) (start chunkSize : Nat) :
    computeEnd text start chunkSize = computeEnd_amended text start chunkSize := by
  unfold computeEnd computeEnd_amended cutAt
  simp only [scanBack_eq_find]

/-! Emptiness facts for the chunking loops. -/

theorem chunkLoop_nil_of_ge {text : List Char} {cs co start : Nat}
    (h : ¬ start < text.length) : ∀ fuel, chunkLoop text cs co fuel start = [] := by
  intro fuel
  cases fuel with
  | zero => rfl
  | succ f => simp [chunkLoop, h]

theorem pyStrip_eq_nil_iff {l : List Char} :
    pyStrip l = [] ↔ ∀ c ∈ l, isPySpace c := by
  unfold pyStrip
  rw [List.reverse_eq_nil_iff, List.dropWhile_eq_nil_iff]
  constructor
  · intro h c hc
    have := List.takeWhile_append_dropWhile (p := isPySpace) (l := l)
    rw [← this] at hc
    rcases List.mem_append.mp hc with h1 | h1
    · exact List.mem_takeWhile_imp h1
    · exact h c (List.mem_reverse.mpr h1)
  · intro h c hc
    exact h c ((List.dropWhile_sublist _).subset (List.mem_reverse.mp hc))

theorem getD_mem_slice {text : List Char} {s e j : Nat}
    (h1 : s ≤ j) (h2 : j < e) (h3 : j < text.length) :
    text.getD j ' ' ∈ slice text s e := by
  have hlen : j - s < (slice text s e).length := by
    simp only [slice, List.length_take, List.length_drop]
    omega
  have hd : j - s < (text.drop s).length := by
    simp only [List.length_drop]; omega
  have hval : (slice text s e).get ⟨j - s, hlen⟩ = text.getD j ' ' := by
    have hsj : s + (j - s) = j := by omega
    simp only [slice, List.get_eq_getElem, List.getElem_take, List.getElem_drop,
      List.getD_eq_getElem?_getD, hsj, List.getElem?_eq_getElem h3]
    rfl
  rw [← hval]
  exact List.get_mem _ _ _

theorem chunkDocLoop_pid {doc : List Char} {p : String} {cs co : Nat} :
    ∀ fuel start idx c, c ∈ chunkDocLoop doc p cs co fuel start idx →
      c.notion_page_id = p := by
  intro fuel
  induction fuel with
  | zero => intro start idx c hc; simp [chunkDocLoop] at hc
  | succ f ih =>
    intro start idx c hc
    rw [chunkDocLoop] at hc
    dsimp only at hc
    split at hc
    · split at hc
      · exact ih _ _ _ hc
      · rcases List.mem_cons.mp hc with h | h
        · rw [h]
        · exact ih _ _ _ h
    · simp at hc

theorem chunkDocLoop_ne_nil {doc : List Char} {p : String} {cs co : Nat}
    (hcs : 1 ≤ cs) :
    ∀ fuel start idx, doc.length - start ≤ fuel →
      (∃ j, start ≤ j ∧ j < doc.length ∧ isPySpace (doc.getD j ' ') = false) →
      chunkDocLoop doc p cs co fuel start idx ≠ [] := by
  intro fuel
  induction fuel with
  | zero =>
    intro start idx hf ⟨j, hj1, hj2, _⟩
    omega
  | succ f ih =>
    intro start idx hf ⟨j, hj1, hj2, hj3⟩
    have hs : start < doc.length := by omega
    rw [chunkDocLoop, if_pos hs]
    set e := computeEnd doc start cs with he
    by_cases hempty : (pyStrip (slice doc start e)).isEmpty
    · rw [if_pos hempty]
      have hall : ∀ c ∈ slice doc start e, isPySpace c :=
        pyStrip_eq_nil_iff.mp (List.isEmpty_iff.mp hempty)
      have hje : ¬ j < e := by
        intro hjlt
        have := hall _ (getD_mem_slice hj1 hjlt hj2)
        rw [hj3] at this
        exact Bool.false_ne_true this
      have hegt : start < e := he ▸ computeEnd_gt hcs
      have hnext : nextStart start e co ≤ e := by
        simp only [nextStart]; omega
      apply ih
      · have := nextStart_gt start e co
        omega
      · exact ⟨j, by omega, hj2, hj3⟩
    · rw [if_neg hempty]
      simp

/-! Claim C8: the cursor strictly advances, and the loop closes within
text.length iterations of fuel. -/

/-- C8: for every text and parameters, the next cursor max(cursor + 1,
end - overlap) strictly exceeds the cursor, and consequently the chunking
loop terminates: any fuel of at least text.length iterations yields the
same (final) result as exactly text.length iterations. -/
theorem C8_progress_and_termination :
    (∀ start endPos overlap, start < nextStart start endPos overlap) ∧
    (∀ (text : List Char) (cs co fuel : Nat), text.length ≤ fuel →
      chunkLoop text cs co fuel 0 = chunkLoop text cs co text.length 0) := by
  constructor
  · exact nextStart_gt
  · intro text cs co fuel hf
    exact chunkLoop_fuel_irrel text cs co fuel text.length 0 (by omega) (by omega)

/-- Witness for C8 at concrete input: extra fuel does not change the result. -/
theorem C8_witness :
    chunkLoop twoCharDoc 3 2 10 0 = chunkLoop twoCharDoc 3 2 twoCharDoc.length 0 :=
  C8_progress_and_termination.2 twoCharDoc 3 2 10 (by decide)

/-! Claim C3: boundary-search windows. -/

set_option maxRecDepth 40000 in
/-- C3 counterexample: the spec prescribes a backward search of up to 100
characters; on a document whose only terminator sits exactly 100 characters
before the tentative end, the spec rule cuts after it (end 1) while the code
misses it and cuts hard at maxSize (end 100). -/
theorem C3_counterexample :
    computeEnd_specC3 c3Doc 0 100 = 1 ∧ computeEnd c3Doc 0 100 = 100 ∧
      computeEnd_specC3 c3Doc 0 100 ≠ computeEnd c3Doc 0 100 := by
  constructor
  · decide
  constructor
  · decide
  · decide

set_option maxRecDepth 1000000 in
set_option maxHeartbeats 1000000 in
/-- C3 amended: the code's end rule equals the amended description (windows
of 99 and 49 characters, strictly above max(cursor + maxSize - 100, cursor)
resp. max(cursor, end - 50); whitespace search also runs when a terminator
was found only at the final position), and the concrete example holds: on the
1000-character document with its only period at index 480, with
chunk_size 512 and overlap 50 the first span is [0, 481), the second span
starts at 431, and the first produced chunk is exactly the slice [0, 481). -/
theorem C3_amended_windows_and_example :
    (∀ (text : List Char) (start chunkSize : Nat),
      computeEnd text start chunkSize = computeEnd_amended text start chunkSize) ∧
    (chunkSpans exampleDoc 512 50 exampleDoc.length 0).take 2 = [(0, 481), (431, 943)] ∧
    (chunk_text exampleDoc 512 50).take 1 = [slice exampleDoc 0 481] := by
  refine ⟨computeEnd_eq_amended, ?_, ?_⟩
  · decide
  · decide

/-! Claim C9: edge cases of chunk_text. -/

/-- C9 counterexample: an input of length 2, shorter than maxSize 3, yields
two chunks when the overlap is 2 (the cursor re-enters the text at
max(1, 3 - 2) = 1), not one chunk equal to the trimmed input. -/
theorem C9_counterexample :
    twoCharDoc.length < 3 ∧ pyStrip twoCharDoc ≠ [] ∧
      chunk_text twoCharDoc 3 2 = [['a', 'b'], ['b']] ∧
      chunk_text twoCharDoc 3 2 ≠ [pyStrip twoCharDoc] := by
  refine ⟨by decide, by decide, by decide, by decide⟩

/-- C9 amended: whitespace-only input yields zero chunks for every parameter
pair, and a non-blank input of length at most max(1, maxSize - overlap)
(with maxSize positive) yields exactly one chunk, the trimmed input. -/
theorem C9_edge_cases :
    ∀ (text : List Char) (cs co : Nat),
      (pyStrip text = [] → chunk_text text cs co = []) ∧
      (pyStrip text ≠ [] → 1 ≤ cs → text.length ≤ max 1 (cs - co) →
        chunk_text text cs co = [pyStrip text]) := by
  intro text cs co
  constructor
  · intro h
    unfold chunk_text
    rw [if_pos (List.isEmpty_iff.mpr h)]
  · intro hne hcs hlen
    have hpos : 0 < text.length := by
      rcases text with _ | ⟨a, t⟩
      · simp [pyStrip] at hne
      · simp
    have hcsle : text.length ≤ cs := by omega
    unfold chunk_text
    rw [if_neg (by simpa using hne)]
    obtain ⟨n, hn⟩ : ∃ n, text.length = n + 1 := ⟨text.length - 1, by omega⟩
    rw [hn, chunkLoop, if_pos (by omega)]
    have hend : computeEnd text 0 cs = cs := by
      unfold computeEnd
      dsimp only
      rw [if_neg (by omega)]
      omega
    have hslice : slice text 0 cs = text := by
      simp [slice, List.take_of_length_le hcsle]
    have hrest : chunkLoop text cs co n (nextStart 0 cs co) = [] := by
      apply chunkLoop_nil_of_ge
      simp only [nextStart]
      omega
    dsimp only
    rw [hend, hslice, hrest, if_neg (by simpa using hne)]

/-- Witness for C9 at concrete input: a short non-blank text yields exactly
its trimmed self. -/
theorem C9_witness :
    chunk_text twoCharDoc 5 1 = [pyStrip twoCharDoc] :=
  (C9_edge_cases twoCharDoc 5 1).2 (by decide) (by decide) (by decide)

/-! Claim C10: chunk_documents validation and coverage. -/

/-- C10: chunk_documents fails (the ValueError) exactly when the document and
page-id lists differ in length; on equal lengths it succeeds, and every
non-blank document contributes at least one chunk carrying its page id. -/
theorem C10_validation :
    ∀ (docs : List (List Char)) (pageIds : List String) (cs co : Nat),
      ((∃ msg, chunk_documents docs pageIds cs co = .error msg) ↔
        docs.length ≠ pageIds.length) ∧
      (docs.length = pageIds.length → 1 ≤ cs →
        ∃ l, chunk_documents docs pageIds cs co = .ok l ∧
          ∀ dp ∈ docs.zip pageIds, pyStrip dp.1 ≠ [] →
            ∃ c ∈ l, c.notion_page_id = dp.2) := by
  intro docs pageIds cs co
  by_cases hlen : docs.length = pageIds.length
  · constructor
    · constructor
      · intro ⟨msg, hmsg⟩
        unfold chunk_documents at hmsg
        rw [if_neg (by omega)] at hmsg
        exact absurd hmsg (by simp)
      · intro h; exact absurd hlen h
    · intro _ hcs
      refine ⟨_, by unfold chunk_documents; rw [if_neg (by omega)], ?_⟩
      intro dp hdp hblank
      have hseg : (if (pyStrip dp.1).isEmpty then []
          else chunkDocLoop dp.1 dp.2 cs co dp.1.length 0 0) ≠ [] := by
        rw [if_neg (by simpa using hblank)]
        apply chunkDocLoop_ne_nil hcs _ _ _ (by omega)
        obtain ⟨c, hc, hcp⟩ : ∃ c ∈ dp.1, ¬ isPySpace c := by
          by_contra hall
          push_neg at hall
          exact hblank (pyStrip_eq_nil_iff.mpr (by simpa using hall))
        obtain ⟨j, hj, hjv⟩ := List.mem_iff_getElem.mp hc
        refine ⟨j, by omega, hj, ?_⟩
        have : dp.1.getD j ' ' = c := by
          simp [List.getD_eq_getElem?_getD, List.getElem?_eq_getElem hj, hjv]
        rw [this]
        simpa using hcp
      obtain ⟨c, hc⟩ := List.exists_mem_of_ne_nil _ hseg
      refine ⟨c, ?_, ?_⟩
      · exact List.mem_flatMap.mpr ⟨dp, hdp, hc⟩
      · rw [if_neg (by simpa using hblank)] at hc
        exact chunkDocLoop_pid _ _ _ _ hc
  · constructor
    · constructor
      · intro _; exact hlen
      · intro _
        refine ⟨"Number of documents must match number of page IDs", ?_⟩
        unfold chunk_documents
        rw [if_pos hlen]
    · intro h; exact absurd h hlen

/-- Witness for C10 at concrete input: equal-length lists succeed and the
non-blank document contributes a chunk with its page id. -/
theorem C10_witness :
    ∃ l, chunk_documents [twoCharDoc] ["page"] 512 50 = .ok l ∧
      ∀ dp ∈ [twoCharDoc].zip ["page"], pyStrip dp.1 ≠ [] →
        ∃ c ∈ l, c.notion_page_id = dp.2 :=
  (C10_validation [twoCharDoc] ["page"] 512 50).2 (by decide) (by decide)

/-! Claim C2: delete_chunks_by_page_id removes the page's rows everywhere,
is a no-op when none exist, and is idempotent. -/

theorem delete_chunks_mem {s : DB} {pid : String} :
    ∀ c ∈ (delete_chunks_by_page_id s pid).chunks, ¬ c.notion_page_id = some pid := by
  intro c hc
  simp only [delete_chunks_by_page_id, List.mem_filter, decide_not] at hc
  simpa using hc.2

theorem getChunks_eq_nil_iff {s : DB} {pid : String} :
    get_chunks_by_page_id s pid = [] ↔
      s.chunks.filter (fun c => c.notion_page_id = some pid) = [] := by
  unfold get_chunks_by_page_id
  constructor
  · intro h
    have hlen := (List.perm_insertionSort (fun a b => idxKey a ≤ idxKey b)
      (s.chunks.filter (fun c => c.notion_page_id = some pid))).length_eq
    rw [h] at hlen
    exact List.length_eq_zero.mp hlen.symm
  · intro h
    rw [h]
    rfl

theorem getChunks_delete {s : DB} {pid : String} :
    get_chunks_by_page_id (delete_chunks_by_page_id s pid) pid = [] := by
  rw [getChunks_eq_nil_iff]
  rw [List.filter_eq_nil_iff]
  intro c hc
  simpa using delete_chunks_mem c hc

theorem delete_noop {s : DB} {pid : String}
    (h : get_chunks_by_page_id s pid = []) : delete_chunks_by_page_id s pid = s := by
  have hfil := getChunks_eq_nil_iff.mp h
  have hmem : ∀ c ∈ s.chunks, ¬ c.notion_page_id = some pid := by
    intro c hc
    have := List.filter_eq_nil_iff.mp hfil c hc
    simpa using this
  have hids : pageChunkIds s pid = [] := by
    unfold pageChunkIds
    rw [hfil]
    rfl
  unfold delete_chunks_by_page_id
  rw [hids]
  dsimp only
  have h1 : s.chunks_fts.filter (fun r => ¬ r.1 ∈ ([] : List Nat)) = s.chunks_fts :=
    List.filter_eq_self.mpr (fun r _ => by simp)
  have h2 : s.chunk_embeddings.filter (fun r => ¬ r.1 ∈ ([] : List Nat)) = s.chunk_embeddings :=
    List.filter_eq_self.mpr (fun r _ => by simp)
  have h3 : s.chunks.filter (fun c => ¬ c.notion_page_id = some pid) = s.chunks :=
    List.filter_eq_self.mpr (fun c hc => by simpa using hmem c hc)
  rw [h1, h2, h3]

/-- C2: deleting a page's chunks removes every chunk row, lexical-index row
and embedding row of that page; a subsequent getChunks is empty; the delete
is a no-op when the page has no chunks; and it is idempotent (safe to
retry). -/
theorem C2_delete_chunks :
    ∀ (s : DB) (pid : String),
      (∀ c ∈ (delete_chunks_by_page_id s pid).chunks, ¬ c.notion_page_id = some pid) ∧
      get_chunks_by_page_id (delete_chunks_by_page_id s pid) pid = [] ∧
      (∀ i ∈ pageChunkIds s pid,
        (∀ r ∈ (delete_chunks_by_page_id s pid).chunks_fts, r.1 ≠ i) ∧
        (∀ r ∈ (delete_chunks_by_page_id s pid).chunk_embeddings, r.1 ≠ i)) ∧
      (get_chunks_by_page_id s pid = [] → delete_chunks_by_page_id s pid = s) ∧
      delete_chunks_by_page_id (delete_chunks_by_page_id s pid) pid =
        delete_chunks_by_page_id s pid := by
  intro s pid
  refine ⟨delete_chunks_mem, getChunks_delete, ?_, delete_noop, delete_noop getChunks_delete⟩
  intro i hi
  constructor
  · intro r hr
    simp only [delete_chunks_by_page_id, List.mem_filter, decide_not] at hr
    intro hri
    have hr2 : ¬ r.1 ∈ pageChunkIds s pid := by simpa using hr.2
    exact hr2 (hri ▸ hi)
  · intro r hr
    simp only [delete_chunks_by_page_id, List.mem_filter, decide_not] at hr
    intro hri
    have hr2 : ¬ r.1 ∈ pageChunkIds s pid := by simpa using hr.2
    exact hr2 (hri ▸ hi)

/-- Witness for C2 at concrete input: deleting a page with no chunks leaves
the store untouched. -/
theorem C2_witness :
    delete_chunks_by_page_id oneChunkDB "p" = oneChunkDB :=
  (C2_delete_chunks oneChunkDB "p").2.2.2.1 (by decide)

/-! Claim C5: the chunk table and the lexical index never diverge, but
embedding ownership is not enforced by the store. -/

theorem map_filter_comp {α β : Type} (f : α → β) (p : β → Bool) (l : List α) :
    (l.filter (fun a => p (f a))).map f = (l.map f).filter p := by
  induction l with
  | nil => rfl
  | cons a t ih =>
    by_cases h : p (f a) <;> simp [h, ih]

theorem wf_store_chunk {s : DB} (hwf : WellFormedStore s)
    (content : List Char) (pid : Option String) (idx : Option Nat) :
    WellFormedStore (store_chunk s content pid idx).2 := by
  obtain ⟨hperm, hnodup, hbound⟩ := hwf
  have hc : chunkIds (store_chunk s content pid idx).2 = chunkIds s ++ [s.nextChunkId] := by
    simp [chunkIds, store_chunk]
  have hf : ftsIds (store_chunk s content pid idx).2 = ftsIds s ++ [s.nextChunkId] := by
    simp [ftsIds, store_chunk]
  refine ⟨?_, ?_, ?_⟩
  · rw [hc, hf]
    exact hperm.append (List.Perm.refl _)
  · rw [hc]
    refine hnodup.append (List.nodup_singleton _) ?_
    intro a ha hb
    rw [List.mem_singleton] at hb
    have hlt := hbound a ha
    rw [hb] at hlt
    exact absurd hlt (lt_irrefl _)
  · rw [hc]
    intro i hi
    rcases List.mem_append.mp hi with h | h
    · have := hbound i h
      simp only [store_chunk]
      omega
    · rw [List.mem_singleton] at h
      subst h
      simp [store_chunk]

theorem wf_delete {s : DB} (hwf : WellFormedStore s) (pid : String) :
    WellFormedStore (delete_chunks_by_page_id s pid) := by
  obtain ⟨hperm, hnodup, hbound⟩ := hwf
  have hid : ∀ c ∈ s.chunks, (c.notion_page_id = some pid ↔ c.id ∈ pageChunkIds s pid) := by
    intro c hc
    constructor
    · intro h
      exact List.mem_map.mpr ⟨c, List.mem_filter.mpr ⟨hc, by simp [h]⟩, rfl⟩
    · intro h
      obtain ⟨c2, hc2, hcc⟩ := List.mem_map.mp h
      obtain ⟨hc2m, hc2p⟩ := List.mem_filter.mp hc2
      have : c2 = c := List.inj_on_of_nodup_map hnodup hc2m hc hcc
      subst this
      simpa using hc2p
  have hchunks : (delete_chunks_by_page_id s pid).chunks =
      s.chunks.filter (fun c => ¬ c.id ∈ pageChunkIds s pid) := by
    apply List.filter_congr
    intro c hc
    simp [hid c hc]
  have hcIds : chunkIds (delete_chunks_by_page_id s pid) =
      (chunkIds s).filter (fun i => ¬ i ∈ pageChunkIds s pid) := by
    unfold chunkIds
    rw [hchunks]
    exact map_filter_comp (fun c => c.id) (fun i => ¬ i ∈ pageChunkIds s pid) s.chunks
  have hfIds : ftsIds (delete_chunks_by_page_id s pid) =
      (ftsIds s).filter (fun i => ¬ i ∈ pageChunkIds s pid) := by
    unfold ftsIds
    show (s.chunks_fts.filter (fun r => ¬ r.1 ∈ pageChunkIds s pid)).map Prod.fst = _
    exact map_filter_comp Prod.fst (fun i => ¬ i ∈ pageChunkIds s pid) s.chunks_fts
  refine ⟨?_, ?_, ?_⟩
  · rw [hcIds, hfIds]
    exact hperm.filter _
  · rw [hcIds]
    exact hnodup.filter _
  · rw [hcIds]
    intro i hi
    have := hbound i (List.mem_of_mem_filter hi)
    simpa [delete_chunks_by_page_id] using this

/-- C5 counterexample: the store does not enforce embedding ownership: on the
well-formed empty store, a chunk-embedding upsert with a nonexistent owner id
succeeds and leaves an orphan embedding row. -/
theorem C5_counterexample :
    WellFormedStore emptyDB ∧ EmbOwnersExist emptyDB ∧
      ¬ EmbOwnersExist (store_chunk_embedding emptyDB 7 [1]) := by
  refine ⟨⟨by simp [chunkIds, ftsIds, emptyDB], by simp [chunkIds, emptyDB], ?_⟩, ?_, ?_⟩
  · intro i hi
    simp [chunkIds, emptyDB] at hi
  · intro e he
    simp [emptyDB] at he
  · intro h
    obtain ⟨c, hc, _⟩ := h (7, [1]) (by decide)
    simp [store_chunk_embedding, emptyDB] at hc

/-- C5 amended: every store operation preserves the alignment of the chunk
table and the lexical index (fts rowids are exactly the chunk ids, which stay
unique and below the fresh-id counter), and under that alignment every chunk
row has exactly one matching lexical-index row; embedding-owner existence is
not part of the preserved invariant. -/
theorem C5_store_alignment :
    ∀ s : DB, WellFormedStore s →
      (∀ content pid idx, WellFormedStore (store_chunk s content pid idx).2) ∧
      (∀ cid emb, WellFormedStore (store_chunk_embedding s cid emb)) ∧
      (∀ pid, WellFormedStore (delete_chunks_by_page_id s pid)) ∧
      (∀ content mid meta, WellFormedStore (store_post s content mid meta).2) ∧
      (∀ pid emb, WellFormedStore (store_post_embedding s pid emb)) ∧
      (∀ c ∈ s.chunks, (ftsIds s).count c.id = 1) := by
  intro s hwf
  refine ⟨fun content pid idx => wf_store_chunk hwf content pid idx,
    fun cid emb => hwf, fun pid => wf_delete hwf pid,
    fun content mid meta => hwf, fun pid emb => hwf, ?_⟩
  obtain ⟨hperm, hnodup, _⟩ := hwf
  intro c hc
  rw [← hperm.count_eq]
  exact List.count_eq_one_of_mem hnodup (List.mem_map.mpr ⟨c, hc, rfl⟩)

/-- Witness for C5 at concrete input: inserting a chunk into the well-formed
empty store preserves the alignment. -/
theorem C5_witness :
    WellFormedStore (store_chunk emptyDB ['a'] none none).2 :=
  (C5_store_alignment emptyDB
    ⟨by simp [chunkIds, ftsIds, emptyDB], by simp [chunkIds, emptyDB],
      by intro i hi; simp [chunkIds, emptyDB] at hi⟩).1 ['a'] none none

/-! Claim C7: add_document is idempotent on the page's ordered chunk
contents. -/

theorem persistChunks_chunks (embFn : List Char → List Rat) :
    ∀ (l : List Chunk) (s : DB),
      (persistChunks embFn s l).chunks = s.chunks ++ mkRows s.nextChunkId l := by
  intro l
  induction l with
  | nil => intro s; simp [persistChunks, mkRows]
  | cons ch t ih =>
    intro s
    rw [persistChunks]
    rw [ih]
    simp [store_chunk, store_chunk_embedding, mkRows]

theorem mkRows_map_content : ∀ (l : List Chunk) (n : Nat),
    (mkRows n l).map (fun r => r.content) = l.map (fun c => c.content) := by
  intro l
  induction l with
  | nil => intro n; rfl
  | cons ch t ih => intro n; simp [mkRows, ih]

theorem mkRows_mem : ∀ (l : List Chunk) (n : Nat) (r : ChunkRow), r ∈ mkRows n l →
    ∃ ch ∈ l, r.content = ch.content ∧ r.notion_page_id = some ch.notion_page_id ∧
      r.chunk_index = some ch.chunk_index := by
  intro l
  induction l with
  | nil => intro n r hr; simp [mkRows] at hr
  | cons ch t ih =>
    intro n r hr
    rw [mkRows] at hr
    rcases List.mem_cons.mp hr with h | h
    · exact ⟨ch, List.mem_cons_self _ _, by simp [h]⟩
    · obtain ⟨ch2, hch2, hprops⟩ := ih (n + 1) r h
      exact ⟨ch2, List.mem_cons_of_mem _ hch2, hprops⟩

theorem mkRows_sorted : ∀ (l : List Chunk) (n : Nat),
    l.Pairwise (fun a b => a.chunk_index < b.chunk_index) →
    (mkRows n l).Pairwise (fun a b => idxKey a ≤ idxKey b) := by
  intro l
  induction l with
  | nil => intro n _; exact List.Pairwise.nil
  | cons ch t ih =>
    intro n h
    rw [List.pairwise_cons] at h
    obtain ⟨hhead, htail⟩ := h
    rw [mkRows]
    refine List.Pairwise.cons ?_ (ih (n + 1) htail)
    intro r hr
    obtain ⟨ch2, hch2, _, _, hidx⟩ := mkRows_mem t (n + 1) r hr
    have hlt := hhead ch2 hch2
    simp only [idxKey, hidx, Option.elim_some]
    omega

theorem chunkDocLoop_idx_lb {doc : List Char} {p : String} {cs co : Nat} :
    ∀ fuel start idx c, c ∈ chunkDocLoop doc p cs co fuel start idx →
      idx ≤ c.chunk_index := by
  intro fuel
  induction fuel with
  | zero => intro start idx c hc; simp [chunkDocLoop] at hc
  | succ f ih =>
    intro start idx c hc
    rw [chunkDocLoop] at hc
    dsimp only at hc
    split at hc
    · split at hc
      · exact ih _ _ _ hc
      · rcases List.mem_cons.mp hc with h | h
        · simp [h]
        · have := ih _ _ _ h
          omega
    · simp at hc

theorem chunkDocLoop_idx_sorted {doc : List Char} {p : String} {cs co : Nat} :
    ∀ fuel start idx,
      (chunkDocLoop doc p cs co fuel start idx).Pairwise
        (fun a b => a.chunk_index < b.chunk_index) := by
  intro fuel
  induction fuel with
  | zero => intro start idx; simp [chunkDocLoop]
  | succ f ih =>
    intro start idx
    rw [chunkDocLoop]
    dsimp only
    split
    · split
      · exact ih _ _
      · refine List.Pairwise.cons ?_ (ih _ _)
        intro c hc
        have := chunkDocLoop_idx_lb _ _ _ _ hc
        simp only []
        omega
    · exact List.Pairwise.nil

theorem docSegment_pid {pid : String} {content : List Char} :
    ∀ ch ∈ docSegment pid content, ch.notion_page_id = pid := by
  intro ch hch
  unfold docSegment at hch
  split at hch
  · simp at hch
  · exact chunkDocLoop_pid _ _ _ _ hch

theorem docSegment_sorted {pid : String} {content : List Char} :
    (docSegment pid content).Pairwise (fun a b => a.chunk_index < b.chunk_index) := by
  unfold docSegment
  split
  · exact List.Pairwise.nil
  · exact chunkDocLoop_idx_sorted _ _ _

theorem chunk_documents_single (pid : String) (content : List Char) :
    chunk_documents [content] [pid] 512 50 = .ok (docSegment pid content) := by
  simp [chunk_documents, docSegment]

theorem add_document_chunks (s : DB) (embFn : List Char → List Rat)
    (pid : String) (content : List Char) :
    (add_document s embFn pid content).chunks =
      (delete_chunks_by_page_id s pid).chunks ++
        mkRows s.nextChunkId (docSegment pid content) := by
  unfold add_document
  rw [chunk_documents_single]
  rw [persistChunks_chunks]
  rfl

theorem getChunks_add_document (s : DB) (embFn : List Char → List Rat)
    (pid : String) (content : List Char) :
    get_chunks_by_page_id (add_document s embFn pid content) pid =
      mkRows s.nextChunkId (docSegment pid content) := by
  unfold get_chunks_by_page_id
  rw [add_document_chunks, List.filter_append]
  have h1 : (delete_chunks_by_page_id s pid).chunks.filter
      (fun c => c.notion_page_id = some pid) = [] :=
    List.filter_eq_nil_iff.mpr (fun c hc => by simpa using delete_chunks_mem c hc)
  have h2 : (mkRows s.nextChunkId (docSegment pid content)).filter
      (fun c => c.notion_page_id = some pid) =
      mkRows s.nextChunkId (docSegment pid content) :=
    List.filter_eq_self.mpr (fun r hr => by
      obtain ⟨ch, hch, _, hpid2, _⟩ := mkRows_mem _ _ r hr
      simp [hpid2, docSegment_pid ch hch])
  rw [h1, h2, List.nil_append]
  exact List.Sorted.insertionSort_eq (mkRows_sorted _ _ docSegment_sorted)

/-- C7: running add_document twice with identical content yields the same
ordered chunk contents for that page both times (the canonical chunking of
the content): the second run deletes and fully reinserts, so nothing is
duplicated. -/
theorem C7_add_document_idempotent :
    ∀ (s : DB) (embFn : List Char → List Rat) (pid : String) (content : List Char),
      (get_chunks_by_page_id (add_document s embFn pid content) pid).map
          (fun c => c.content) =
        (docSegment pid content).map (fun c => c.content) ∧
      (get_chunks_by_page_id
          (add_document (add_document s embFn pid content) embFn pid content) pid).map
          (fun c => c.content) =
        (get_chunks_by_page_id (add_document s embFn pid content) pid).map
          (fun c => c.content) := by
  intro s embFn pid content
  rw [getChunks_add_document, getChunks_add_document, mkRows_map_content,
    mkRows_map_content]
  exact ⟨rfl, rfl⟩

/-! Claim C1: score fusion in combine_results. -/

theorem combine_results_mem {s : DB} {bm sem : List (Int × Rat)} {alpha : Rat}
    {r : RetrievedChunk} (hr : r ∈ combine_results s bm sem alpha) :
    r.score = alpha * lookup0 sem r.chunk_id + (1 - alpha) * lookup0 bm r.chunk_id ∧
      r.semantic_score = lookup0 sem r.chunk_id := by
  obtain ⟨cid, hcid, hf⟩ := List.mem_filterMap.mp hr
  dsimp only at hf
  split at hf
  · obtain ⟨p, hp, hpr⟩ := Option.map_eq_some'.mp hf
    rw [← hpr]
    exact ⟨rfl, rfl⟩
  · obtain ⟨c, hc, hcr⟩ := Option.map_eq_some'.mp hf
    rw [← hcr]
    exact ⟨rfl, rfl⟩

/-- C1 counterexample: with alpha = 1 and a candidate whose cosine similarity
is 0 (present only in the vector result set), the code scores it
1·0 + 0·0 = 0, while the claimed formula with the (sim + 1)/2 rescale gives
1/2; no rescaling happens in the code. -/
theorem C1_counterexample :
    ((combine_results oneChunkDB [] [(1, 0)] 1).map (fun r => r.score)) = [0] ∧
      specCombinedScoreC1 1 (lookupOpt [] 1) (lookupOpt [(1, 0)] 1) = 1 / 2 ∧
      ¬ ((combine_results oneChunkDB [] [(1, 0)] 1).map (fun r => r.score) =
        [specCombinedScoreC1 1 (lookupOpt [] 1) (lookupOpt [(1, 0)] 1)]) := by
  have h1 : combine_results oneChunkDB [] [(1, 0)] 1 =
      [⟨1, ['x'], none, none, 1 * 0 + (1 - 1) * 0, 0, 0⟩] := rfl
  have h2 : specCombinedScoreC1 1 (lookupOpt [] 1) (lookupOpt [(1, 0)] 1) =
      1 * ((0 + 1) / 2) + (1 - 1) * 0 := rfl
  refine ⟨?_, ?_, ?_⟩
  · rw [h1]
    simp only [List.map_cons, List.map_nil, List.cons.injEq, and_true]
    norm_num
  · rw [h2]
    norm_num
  · rw [h1, h2]
    simp only [List.map_cons, List.map_nil, ne_eq, List.cons.injEq, and_true]
    norm_num

/-- C1 amended: for every candidate in the union of the two result sets that
resolves in the store, the hybrid retriever scores it
alpha · semanticScore + (1 - alpha) · lexicalScore, where the semantic
component is the raw cosine similarity (no rescaling) and a candidate missing
from one result set contributes 0 for that component. -/
theorem C1_combined_score :
    ∀ (s : DB) (bm sem : List (Int × Rat)) (alpha : Rat) (cid : Int),
      cid ∈ bm.map Prod.fst ++ sem.map Prod.fst →
      resolvable s cid = true →
      ∃ r ∈ combine_results s bm sem alpha,
        r.chunk_id = cid ∧
        r.score = alpha * lookup0 sem cid + (1 - alpha) * lookup0 bm cid ∧
        r.semantic_score = lookup0 sem cid := by
  intro s bm sem alpha cid hmem hres
  have hd : cid ∈ (bm.map Prod.fst ++ sem.map Prod.fst).dedup := List.mem_dedup.mpr hmem
  unfold resolvable at hres
  by_cases hneg : cid < 0
  · rw [if_pos hneg] at hres
    obtain ⟨p, hp⟩ := Option.isSome_iff_exists.mp hres
    refine ⟨⟨cid, p.content, none, none,
        alpha * lookup0 sem cid + (1 - alpha) * lookup0 bm cid, 0, lookup0 sem cid⟩,
      ?_, rfl, rfl, rfl⟩
    apply List.mem_filterMap.mpr
    refine ⟨cid, hd, ?_⟩
    dsimp only
    rw [if_pos hneg, hp]
    rfl
  · rw [if_neg hneg] at hres
    obtain ⟨c, hc⟩ := Option.isSome_iff_exists.mp hres
    refine ⟨⟨cid, c.content, c.notion_page_id, c.chunk_index,
        alpha * lookup0 sem cid + (1 - alpha) * lookup0 bm cid,
        lookup0 bm cid, lookup0 sem cid⟩,
      ?_, rfl, rfl, rfl⟩
    apply List.mem_filterMap.mpr
    refine ⟨cid, hd, ?_⟩
    dsimp only
    rw [if_neg hneg, hc]
    rfl

/-- Witness for C1 at concrete input: the single semantic candidate of the
one-chunk store is scored alpha·sim + (1 - alpha)·0. -/
theorem C1_witness :
    ∃ r ∈ combine_results oneChunkDB [] [(1, 0)] 1,
      r.chunk_id = 1 ∧
      r.score = 1 * lookup0 [(1, 0)] 1 + (1 - 1) * lookup0 [] 1 ∧
      r.semantic_score = lookup0 [(1, 0)] 1 :=
  C1_combined_score oneChunkDB [] [(1, 0)] 1 1 (by decide) (by decide)

/-! Claim C4: alpha = 0 and alpha = 1 orderings. -/

theorem hybrid_sorted (s : DB) (matchQ : String → List Char → Bool)
    (rankOf : String → Nat → Rat) (sim : List Rat → Rat) (q : String)
    (top_k : Nat) (alpha : Rat) (includePosts : Bool) :
    (hybrid_search s matchQ rankOf sim q top_k alpha includePosts).Pairwise
      (fun a b => b.score ≤ a.score) := by
  unfold hybrid_search
  haveI ht : IsTotal RetrievedChunk (fun a b => b.score ≤ a.score) :=
    ⟨fun a b => le_total b.score a.score⟩
  haveI htr : IsTrans RetrievedChunk (fun a b => b.score ≤ a.score) :=
    ⟨fun a b c h1 h2 => le_trans h2 h1⟩
  exact List.Pairwise.sublist (List.take_sublist _ _) (List.sorted_insertionSort _ _)

theorem hybrid_mem_combine {s : DB} {matchQ : String → List Char → Bool}
    {rankOf : String → Nat → Rat} {sim : List Rat → Rat} {q : String}
    {top_k : Nat} {alpha : Rat} {includePosts : Bool} {r : RetrievedChunk}
    (hr : r ∈ hybrid_search s matchQ rankOf sim q top_k alpha includePosts) :
    r ∈ combine_results s (bmCandidates s matchQ rankOf q top_k)
      (semantic_search s sim includePosts) alpha := by
  unfold hybrid_search at hr
  exact (List.mem_insertionSort _).mp ((List.take_sublist _ _).subset hr)

/-- C4: with alpha = 0 the returned list is sorted by (combined) score, and
every result's score is exactly its lexical score (semantic-only candidates
contribute 0), so the ordering is the pure lexical ordering; with alpha = 1
every result's score is exactly its raw cosine score, so the ordering is the
pure semantic cosine ordering. -/
theorem C4_alpha_extremes :
    ∀ (s : DB) (matchQ : String → List Char → Bool) (rankOf : String → Nat → Rat)
      (sim : List Rat → Rat) (q : String) (top_k : Nat) (includePosts : Bool),
      ((hybrid_search s matchQ rankOf sim q top_k 0 includePosts).Pairwise
        (fun a b => b.score ≤ a.score)) ∧
      (∀ r ∈ hybrid_search s matchQ rankOf sim q top_k 0 includePosts,
        r.score = lookup0 (bmCandidates s matchQ rankOf q top_k) r.chunk_id) ∧
      ((hybrid_search s matchQ rankOf sim q top_k 1 includePosts).Pairwise
        (fun a b => b.score ≤ a.score)) ∧
      (∀ r ∈ hybrid_search s matchQ rankOf sim q top_k 1 includePosts,
        r.score = lookup0 (semantic_search s sim includePosts) r.chunk_id) := by
  intro s matchQ rankOf sim q top_k includePosts
  refine ⟨hybrid_sorted s matchQ rankOf sim q top_k 0 includePosts, ?_,
    hybrid_sorted s matchQ rankOf sim q top_k 1 includePosts, ?_⟩
  · intro r hr
    rw [(combine_results_mem (hybrid_mem_combine hr)).1]
    ring
  · intro r hr
    rw [(combine_results_mem (hybrid_mem_combine hr)).1]
    ring

/-- Witness for C4 at concrete input: in the one-chunk store with trivial
oracles and alpha = 0, the returned result's score is its lexical score. -/
theorem C4_witness :
    (⟨1, ['x'], none, none, 0 * (1 / 2) + (1 - 0) * 1, 1, 1 / 2⟩ : RetrievedChunk).score =
      lookup0 (bmCandidates oneChunkDB (fun _ _ => true) (fun _ _ => 0) "q" 1)
        (⟨1, ['x'], none, none, 0 * (1 / 2) + (1 - 0) * 1, 1, 1 / 2⟩ : RetrievedChunk).chunk_id :=
  (C4_alpha_extremes oneChunkDB (fun _ _ => true) (fun _ _ => 0) (fun _ => 1 / 2)
    "q" 1 false).2.1 ⟨1, ['x'], none, none, 0 * (1 / 2) + (1 - 0) * 1, 1, 1 / 2⟩
    (by
      have h : hybrid_search oneChunkDB (fun _ _ => true) (fun _ _ => 0)
          (fun _ => 1 / 2) "q" 1 0 false =
          [⟨1, ['x'], none, none, 0 * (1 / 2) + (1 - 0) * 1, 1, 1 / 2⟩] := rfl
      rw [h]
      exact List.mem_singleton_self _)

/-! Claim C6: rank normalization of the lexical search. -/

theorem foldl_max_of_le : ∀ (l : List Rat) (a : Rat), (∀ x ∈ l, x ≤ a) →
    l.foldl max a = a := by
  intro l
  induction l with
  | nil => intro a _; rfl
  | cons x t ih =>
    intro a h
    have hx : max a x = a := max_eq_left (h x (List.mem_cons_self _ _))
    rw [List.foldl_cons, hx]
    exact ih a (fun y hy => h y (List.mem_cons_of_mem _ hy))

theorem foldl_min_of_ge : ∀ (l : List Rat) (a : Rat), (∀ x ∈ l, a ≤ x) →
    l.foldl min a = a := by
  intro l
  induction l with
  | nil => intro a _; rfl
  | cons x t ih =>
    intro a h
    have hx : min a x = a := min_eq_left (h x (List.mem_cons_self _ _))
    rw [List.foldl_cons, hx]
    exact ih a (fun y hy => h y (List.mem_cons_of_mem _ hy))

theorem ftsQuery_mem_chunkIds {s : DB} {matchQ : String → List Char → Bool}
    {rankOf : String → Nat → Rat} {q : String} {limit : Nat} :
    ∀ p ∈ ftsQuery s matchQ rankOf q limit, p.1 ∈ chunkIds s := by
  intro p hp
  unfold ftsQuery at hp
  have h1 := (List.mem_insertionSort _).mp ((List.take_sublist _ _).subset hp)
  obtain ⟨r, hrmem, heq⟩ := List.mem_map.mp h1
  obtain ⟨hr1, hr2⟩ := List.mem_filter.mp hrmem
  obtain ⟨c, hc⟩ := Option.isSome_iff_exists.mp (by simpa using hr2)
  have hcm := List.mem_of_find?_eq_some hc
  have hcid : c.id = r.1 := by simpa using List.find?_some hc
  have hp1 : p.1 = r.1 := by rw [← heq]
  rw [hp1, ← hcid]
  exact List.mem_map.mpr ⟨c, hcm, rfl⟩

/-- C6: the lexical search only ever returns chunk rowids (never posts); each
FTS row (id, rank) appears normalized in the result; the normalization maps
the minimum rank to 1.0, the maximum rank to 0.0 when ranks differ, linearly
interpolates by rank, and maps every rank to 1.0 when all ranks tie. -/
theorem C6_rank_normalization :
    ∀ (s : DB) (matchQ : String → List Char → Bool) (rankOf : String → Nat → Rat)
      (q : String) (limit : Nat),
      (∀ p ∈ bm25_search s matchQ rankOf q limit, p.1 ∈ chunkIds s) ∧
      (∀ p ∈ ftsQuery s matchQ rankOf q limit,
        (p.1, normalizeRank (minRank (ftsQuery s matchQ rankOf q limit))
          (maxRank (ftsQuery s matchQ rankOf q limit)) p.2) ∈
          bm25_search s matchQ rankOf q limit) ∧
      (∀ m M r : Rat,
        (r = m → normalizeRank m M r = 1) ∧
        (m < M → r = M → normalizeRank m M r = 0) ∧
        (m < M → normalizeRank m M r = 1 - (r - m) / (M - m))) ∧
      ((∀ p ∈ ftsQuery s matchQ rankOf q limit,
          ∀ p2 ∈ ftsQuery s matchQ rankOf q limit, p.2 = p2.2) →
        ∀ p ∈ bm25_search s matchQ rankOf q limit, p.2 = 1) := by
  intro s matchQ rankOf q limit
  refine ⟨?_, ?_, ?_, ?_⟩
  · intro p hp
    unfold bm25_search at hp
    obtain ⟨p2, hp2, heq⟩ := List.mem_map.mp hp
    have : p.1 = p2.1 := by rw [← heq]
    rw [this]
    exact ftsQuery_mem_chunkIds p2 hp2
  · intro p hp
    unfold bm25_search
    exact List.mem_map.mpr ⟨p, hp, rfl⟩
  · intro m M r
    refine ⟨?_, ?_, ?_⟩
    · intro hrm
      unfold normalizeRank
      split
      · rw [hrm]
        rw [sub_self, zero_div, sub_zero]
      · rfl
    · intro hlt hrM
      unfold normalizeRank
      rw [if_pos hlt, hrM, div_self (ne_of_gt (sub_pos.mpr hlt)), sub_self]
    · intro hlt
      unfold normalizeRank
      rw [if_pos hlt]
  · intro htie p hp
    unfold bm25_search at hp
    obtain ⟨p2, hp2, heq⟩ := List.mem_map.mp hp
    have hp2val : p.2 = normalizeRank (minRank (ftsQuery s matchQ rankOf q limit))
        (maxRank (ftsQuery s matchQ rankOf q limit)) p2.2 := by
      rw [← heq]
    cases hrows : ftsQuery s matchQ rankOf q limit with
    | nil => rw [hrows] at hp2; simp at hp2
    | cons p0 t =>
      rw [hrows] at htie hp2val
      have hall : ∀ x ∈ t.map (fun p => p.2), x = p0.2 := by
        intro x hx
        obtain ⟨p3, hp3, hx3⟩ := List.mem_map.mp hx
        rw [← hx3]
        exact htie p3 (List.mem_cons_of_mem _ hp3) p0 (List.mem_cons_self _ _)
      have hmax : maxRank (p0 :: t) = p0.2 :=
        foldl_max_of_le _ _ (fun x hx => le_of_eq (hall x hx))
      have hmin : minRank (p0 :: t) = p0.2 :=
        foldl_min_of_ge _ _ (fun x hx => ge_of_eq (hall x hx))
      rw [hp2val, hmax, hmin]
      unfold normalizeRank
      rw [if_neg (lt_irrefl _)]

/-- Witness for C6 at concrete input: with a single FTS row all ranks tie and
the candidate is normalized to score 1.0. -/
theorem C6_witness :
    ((1 : Nat), (1 : Rat)).2 = 1 :=
  (C6_rank_normalization oneChunkDB (fun _ _ => true) (fun _ _ => 0) "q" 2).2.2.2
    (by decide) (1, 1) (by decide)

end SocialAgent
